import Mathlib

/-!
Verification of the pomodoro-cli session store, lifecycle commands and
goal/streak analytics.

The embedding models wall-clock instants and durations as integers counting
seconds.  The session store (a sqlite table in the source) is modelled as a
list of session records in rowid order; `ORDER BY start_time DESC LIMIT 1`
queries are modelled by a maximum-selection over the list.  Commands
(`pause`, `resume`, `cancel`, `start`) are pure state transformers on the
store, parameterised by the current time `now`.
-/

namespace Pomodoro

/-- A row of the `pomodoros` table (db.PomodoroSession). -/
structure Session where
  id : Int
  startTime : Int
  endTime : Int
  description : String
  durationSec : Int
  tagsCSV : String
  wasBreak : Bool
  pausedAt : Option Int
  totalPausedDuration : Int
  isPaused : Bool
deriving DecidableEq, Repr

/-- The session store: rows in insertion (rowid) order. -/
abbrev Store := List Session

/-- `ORDER BY start_time DESC LIMIT 1`: select a row of maximal
`start_time` (the earlier row wins a tie). -/
def latestBy : Store → Option Session
  | [] => none
  | s :: rest =>
    match latestBy rest with
    | none => some s
    | some t => if t.startTime > s.startTime then some t else some s

/-- Next auto-increment id. -/
def nextId (store : Store) : Int :=
  (store.map (·.id)).foldl max 0 + 1

/-- `InternalDB.CreateSession`: inserts one row (pause columns take their
schema defaults) and returns the new row's id. -/
def CreateSession (store : Store) (startTime endTime : Int) (description : String)
    (durationSec : Int) (tagsCSV : String) (wasBreak : Bool) : Store × Int :=
  let id := nextId store
  (store ++ [{ id := id, startTime := startTime, endTime := endTime,
               description := description, durationSec := durationSec,
               tagsCSV := tagsCSV, wasBreak := wasBreak,
               pausedAt := none, totalPausedDuration := 0, isPaused := false }], id)

/-- The `WHERE` clause of `GetActiveSession`:
`(end_time > now AND is_paused = 0) OR is_paused = 1`. -/
def isActiveAt (now : Int) (s : Session) : Bool :=
  (decide (s.endTime > now) && !s.isPaused) || s.isPaused

/-- `InternalDB.GetActiveSession`. -/
def GetActiveSession (now : Int) (store : Store) : Option Session :=
  latestBy (store.filter (isActiveAt now))

/-- `InternalDB.GetPausedSession`: most recent row with `is_paused = 1`. -/
def GetPausedSession (store : Store) : Option Session :=
  latestBy (store.filter (·.isPaused))

/-- `InternalDB.GetLastSession`: most recent row by `start_time`. -/
def GetLastSession (store : Store) : Option Session :=
  latestBy store

/-- `InternalDB.UpdateSessionEndTime`. -/
def UpdateSessionEndTime (store : Store) (id : Int) (endTime : Int) : Store :=
  store.map fun s => if s.id = id then { s with endTime := endTime } else s

/-- `InternalDB.PauseSession`: sets `paused_at` and `is_paused = 1`. -/
def PauseSession (store : Store) (id : Int) (pausedAt : Int) : Store :=
  store.map fun s =>
    if s.id = id then { s with pausedAt := some pausedAt, isPaused := true } else s

/-- `InternalDB.ResumeSession`: re-reads `paused_at` / `total_paused_duration`
for the row, fails when the row is missing or `paused_at` is NULL (the `Scan`
into a `time.Time` errors), otherwise accumulates the extra paused time,
clears the pause columns and sets `end_time = newEndTime`. -/
def ResumeSession (store : Store) (id : Int) (newEndTime : Int) (now : Int) :
    Except Unit Store :=
  match store.find? (fun s => s.id == id) with
  | none => .error ()
  | some row =>
    match row.pausedAt with
    | none => .error ()
    | some p =>
      .ok (store.map fun s =>
        if s.id = id then
          { s with endTime := newEndTime,
                   pausedAt := none,
                   totalPausedDuration := s.totalPausedDuration + (now - p),
                   isPaused := false }
        else s)

/-- Outcome reported by a lifecycle command. -/
inductive CmdResult where
  /-- "No active/paused session" notice: non-fatal no-op. -/
  | noSession : CmdResult
  /-- "Session is already paused" notice: non-fatal no-op. -/
  | alreadyPaused : CmdResult
  | paused (id : Int) : CmdResult
  | resumed (id : Int) (newEndTime : Int) (remaining : Int) : CmdResult
  | cancelled (id : Int) (actualDuration : Int) : CmdResult
  /-- A store-level failure: the command aborts (`os.Exit(1)`). -/
  | fatal : CmdResult
deriving DecidableEq, Repr

/-- The end-time recomputation of `resumeCmd` (cmd/resume.go):
`newEndTime = now + (originalDuration - (pausedAt - startTime))`. -/
def resumeNewEndTime (now : Int) (s : Session) : Int :=
  now + (s.durationSec - (s.pausedAt.getD 0 - s.startTime))

/-- `resumeCmd` (cmd/resume.go): look up the most recent paused session,
recompute the end time from the original planned duration and this pause's
timestamp, and commit through `ResumeSession`. -/
def resumeCmd (now : Int) (store : Store) : Store × CmdResult :=
  match GetPausedSession store with
  | none => (store, .noSession)
  | some s =>
    match s.pausedAt with
    | none => (store, .fatal)
    | some p =>
      let remaining := s.durationSec - (p - s.startTime)
      let newEnd := now + remaining
      match ResumeSession store s.id newEnd now with
      | .error _ => (store, .fatal)
      | .ok st => (st, .resumed s.id newEnd remaining)

/-- `pauseCmd` (cmd/pause.go): no-op notice when there is no active session
or it is already paused; otherwise record the pause timestamp. -/
def pauseCmd (now : Int) (store : Store) : Store × CmdResult :=
  match GetActiveSession now store with
  | none => (store, .noSession)
  | some s =>
    if s.isPaused then (store, .alreadyPaused)
    else (PauseSession store s.id now, .paused s.id)

/-- `pauseCmd` with the two store calls' results made explicit, mirroring the
error-handling structure of the Go code: a failing `GetActiveSession` or
`PauseSession` aborts the command (`os.Exit(1)`), leaving the store as the
failed call left it (unchanged). -/
def pauseCmdFallible (store : Store)
    (activeRes : Except String (Option Session))
    (pauseRes : Except String Store) : Store × CmdResult :=
  match activeRes with
  | .error _ => (store, .fatal)
  | .ok none => (store, .noSession)
  | .ok (some s) =>
    if s.isPaused then (store, .alreadyPaused)
    else
      match pauseRes with
      | .error _ => (store, .fatal)
      | .ok st => (st, .paused s.id)

/-- `cancelCmd` (cmd/cancel.go): set the active session's end time to `now`
and report `actual_duration = now - start_time`. -/
def cancelCmd (now : Int) (store : Store) : Store × CmdResult :=
  match GetActiveSession now store with
  | none => (store, .noSession)
  | some s =>
    (UpdateSessionEndTime store s.id now, .cancelled s.id (now - s.startTime))

/-! ## Tag sanitisation (internal/utils) and the start command -/

/-- `utils.SanitizeTags` loop: trim and lowercase each tag, skipping empty
results and tags already collected (`seen`).  `acc` holds the cleaned tags
collected so far, most recent first. -/
def SanitizeTagsAux : List String → List String → List String
  | [], acc => acc.reverse
  | t :: rest, acc =>
    let c := t.trim.toLower
    if c ≠ "" ∧ ¬ acc.contains c then SanitizeTagsAux rest (c :: acc)
    else SanitizeTagsAux rest acc

/-- `utils.SanitizeTags`. -/
def SanitizeTags (tags : List String) : List String :=
  SanitizeTagsAux tags []

/-- `startCmd` (cmd/start.go): sanitize the tags, join them to CSV and create
a running session with `start_time = now - ago` and
`end_time = start_time + duration`. -/
def startCmd (now : Int) (store : Store) (ago durationSec : Int)
    (description : String) (rawTags : List String) : Store × Int :=
  let startTime := now - ago
  let endTime := startTime + durationSec
  let tagsCSV := String.intercalate "," (SanitizeTags rawTags)
  CreateSession store startTime endTime description durationSec tagsCSV false

/-! ## Goal progress (internal/goals) -/

/-- `goals.GoalProgress`, restricted to the computed numeric/boolean fields
(`StartDate`/`EndDate` merely echo the query bounds).  `percentage`,
`averagePerDay` and `requiredPerDay` are `float64` in the source; they are
modelled as exact rationals. -/
structure GoalProgress where
  target : Int
  current : Int
  percentage : ℚ
  remaining : Int
  isComplete : Bool
  isOverAchieved : Bool
  daysRemaining : Int
  averagePerDay : ℚ
  requiredPerDay : ℚ
deriving DecidableEq, Repr

/-- Count of non-break sessions in a fetched session list. -/
def countCompleted (sessions : List Session) : Nat :=
  (sessions.filter (fun s => !s.wasBreak)).length

/-- `GoalManager.GetDailyGoalProgress`, as a function of the configured
target and the sessions fetched for `[today 00:00, tomorrow 00:00)`. -/
def GetDailyGoalProgress (target : Int) (sessions : List Session) : GoalProgress :=
  let completed : Int := countCompleted sessions
  let percentage : ℚ := (completed : ℚ) / (target : ℚ) * 100
  let percentage := if percentage > 100 then 100 else percentage
  { target := target
    current := completed
    percentage := percentage
    remaining := max 0 (target - completed)
    isComplete := completed ≥ target
    isOverAchieved := completed > target
    daysRemaining := 1
    averagePerDay := (completed : ℚ)
    requiredPerDay := max 0 ((target : ℚ) - (completed : ℚ)) }

/-- A wall-clock instant at calendar-day granularity: a day number plus the
seconds elapsed since that day's local midnight.  Day numbers are chosen so
that `day ≡ 0 [ZMOD 7]` is a Sunday, matching Go's `time.Weekday`
(`Sunday = 0`, `Monday = 1`, ...). -/
structure LocalTime where
  day : Int
  secOfDay : Int
deriving DecidableEq, Repr

/-- Go-convention weekday of a day number (`0 = Sunday` ... `6 = Saturday`). -/
def weekday (day : Int) : Int := day % 7

/-- The `daysToMonday` computation of `GetWeeklyGoalProgress`:
`int(now.Weekday())`, mapped to `6` on Sunday and decremented otherwise. -/
def daysToMonday (wd : Int) : Int := if wd = 0 then 6 else wd - 1

/-- `weekStart` of `GetWeeklyGoalProgress`:
`time.Date(Y, M, D - daysToMonday, 0, 0, 0, 0, loc)` — the same calendar day
minus `daysToMonday` days, at 00:00:00. -/
def weekStart (now : LocalTime) : LocalTime :=
  { day := now.day - daysToMonday (weekday now.day), secOfDay := 0 }

/-! ## Streaks (GoalManager.GetStreak) -/

/-- `goals.StreakInfo`, restricted to the two streak counters. -/
structure StreakCounts where
  current : Nat
  best : Nat
deriving DecidableEq, Repr

/-- The `currentStreak` loop of `GetStreak`: walk the per-day counts from
today backwards (`counts[0]` is today), incrementing while the day's count is
positive and breaking at the first day without sessions. -/
def currentStreakLoop : List Nat → Nat
  | [] => 0
  | c :: rest => if 0 < c then currentStreakLoop rest + 1 else 0

/-- The `bestStreak` loop of `GetStreak`: a reset-on-zero running counter
`temp`, folded over the same per-day counts, taking the running maximum into
`best`. -/
def bestStreakLoop : List Nat → Nat → Nat → Nat
  | [], _, best => best
  | c :: rest, temp, best =>
    if 0 < c then bestStreakLoop rest (temp + 1) (max best (temp + 1))
    else bestStreakLoop rest 0 best

/-- `GetStreak`, as a function of the 30-day window of per-calendar-day
non-break session counts (`counts[i]` is the count for the day `i` days
before today).  `bestStreak` starts from `currentStreak`, as in the source. -/
def GetStreak (counts : List Nat) : StreakCounts :=
  let current := currentStreakLoop counts
  { current := current
    best := bestStreakLoop counts 0 current }

/-- Reference function for the `bestStreak` fold: the length of the longest
run of positive counts, where a run touching the front of the list may be
extended by `temp` carried-in positive days. -/
def runCarry : Nat → List Nat → Nat
  | _, [] => 0
  | temp, c :: rest =>
    if 0 < c then max (temp + 1) (runCarry (temp + 1) rest)
    else runCarry 0 rest

/-- Keep the first occurrence of each element, dropping later duplicates. -/
def dedupFirst : List String → List String
  | [] => []
  | x :: rest => x :: dedupFirst (rest.filter (fun y => y ≠ x))
termination_by l => l.length
decreasing_by
  simp only [List.length_cons]
  exact Nat.lt_succ_of_le (List.length_filter_le _ _)

/-! ## Concrete data used by witnesses and counterexamples -/

/-- A freshly started work session: planned duration 100s. -/
def sessWork : Session :=
  { id := 1, startTime := 0, endTime := 100, description := "work",
    durationSec := 100, tagsCSV := "", wasBreak := false,
    pausedAt := none, totalPausedDuration := 0, isPaused := false }

/-- A session paused for the first time at t = 50 (within its planned 100s). -/
def sessPausedOnce : Session :=
  { id := 1, startTime := 0, endTime := 100, description := "work",
    durationSec := 100, tagsCSV := "", wasBreak := false,
    pausedAt := some 50, totalPausedDuration := 0, isPaused := true }

/-- Like `sessPausedOnce` but with a non-zero accumulated paused duration
from earlier pause cycles. -/
def sessPausedTot : Session :=
  { id := 1, startTime := 0, endTime := 100, description := "work",
    durationSec := 100, tagsCSV := "", wasBreak := false,
    pausedAt := some 50, totalPausedDuration := 999, isPaused := true }

/-- A completed session that started at t = 100: later by `start_time` than
a back-dated session created afterwards. -/
def sessOld : Session :=
  { id := 1, startTime := 100, endTime := 200, description := "old",
    durationSec := 100, tagsCSV := "", wasBreak := false,
    pausedAt := none, totalPausedDuration := 0, isPaused := false }

/-! ## Helper lemmas on the store queries -/

theorem latestBy_eq_none {l : Store} : latestBy l = none ↔ l = [] := by
  constructor
  · intro h
    cases l with
    | nil => rfl
    | cons s rest =>
      simp only [latestBy] at h
      cases hr : latestBy rest <;> simp [hr] at h
      split at h <;> simp_all
  · rintro rfl; rfl

theorem latestBy_mem_le {l : Store} :
    ∀ {m : Session}, latestBy l = some m →
      m ∈ l ∧ ∀ t ∈ l, t.startTime ≤ m.startTime := by
  induction l with
  | nil => intro m h; simp [latestBy] at h
  | cons s rest ih =>
    intro m h
    cases hr : latestBy rest with
    | none =>
      have hrest : rest = [] := latestBy_eq_none.mp hr
      subst hrest
      simp only [latestBy, Option.some.injEq] at h
      subst h
      simp
    | some t =>
      obtain ⟨hmem, hle⟩ := ih hr
      simp only [latestBy, hr] at h
      split at h
      · -- the latest row of the tail wins: m = t
        rename_i hgt
        simp only [Option.some.injEq] at h
        subst h
        refine ⟨List.mem_cons_of_mem _ hmem, ?_⟩
        intro u hu
        rcases List.mem_cons.mp hu with rfl | hu
        · omega
        · exact hle u hu
      · -- the head wins (tie or a strictly later head): m = s
        rename_i hgt
        simp only [Option.some.injEq] at h
        subst h
        refine ⟨List.mem_cons_self _ _, ?_⟩
        intro u hu
        rcases List.mem_cons.mp hu with rfl | hu
        · exact le_refl _
        · have := hle u hu
          omega

theorem latestBy_of_strict_max {l : Store} {s : Session} (hs : s ∈ l)
    (hmax : ∀ t ∈ l, t ≠ s → t.startTime < s.startTime) : latestBy l = some s := by
  cases hm : latestBy l with
  | none =>
    rw [latestBy_eq_none.mp hm] at hs
    simp at hs
  | some m =>
    obtain ⟨hmem, hle⟩ := latestBy_mem_le hm
    by_cases hms : m = s
    · rw [hms]
    · have h1 := hmax m hmem hms
      have h2 := hle s hs
      omega

theorem getPausedSession_mem {store : Store} {s : Session}
    (h : GetPausedSession store = some s) : s ∈ store ∧ s.isPaused = true := by
  obtain ⟨hmem, _⟩ := latestBy_mem_le h
  have := List.mem_filter.mp hmem
  simpa using this

/-- Characterisation of a successful `resumeCmd`: when the paused-session
lookup returns `s` (whose id identifies it uniquely in the store) with pause
timestamp `p`, the command commits and every copy of the session in the new
store carries `end_time = now + (durationSec - (p - startTime))`, cleared
pause columns, and the paused interval added to `total_paused_duration`. -/
theorem resumeCmd_spec {now : Int} {store : Store} {s : Session} {p : Int}
    (hps : GetPausedSession store = some s) (hp : s.pausedAt = some p)
    (huniq : ∀ t ∈ store, t.id = s.id → t = s) :
    ∃ st, resumeCmd now store =
        (st, .resumed s.id (now + (s.durationSec - (p - s.startTime)))
          (s.durationSec - (p - s.startTime))) ∧
      ∀ t ∈ st, t.id = s.id →
        t.endTime = now + (s.durationSec - (p - s.startTime)) ∧
        t.isPaused = false ∧ t.pausedAt = none ∧
        t.totalPausedDuration = s.totalPausedDuration + (now - p) := by
  obtain ⟨hmem, _⟩ := getPausedSession_mem hps
  have hfind : store.find? (fun t => t.id == s.id) = some s := by
    cases hf : store.find? (fun t => t.id == s.id) with
    | none =>
      exfalso
      have : (store.find? (fun t => t.id == s.id)).isSome :=
        List.find?_isSome.mpr ⟨s, hmem, by simp⟩
      rw [hf] at this
      simp at this
    | some u =>
      have hu1 : u.id = s.id := by simpa using List.find?_some hf
      have hu2 : u ∈ store := List.mem_of_find?_eq_some hf
      rw [huniq u hu2 hu1]
  refine ⟨store.map (fun t =>
      if t.id = s.id then
        { t with endTime := now + (s.durationSec - (p - s.startTime)),
                 pausedAt := none,
                 totalPausedDuration := t.totalPausedDuration + (now - p),
                 isPaused := false }
      else t), ?_, ?_⟩
  · simp only [resumeCmd, hps, hp, ResumeSession, hfind]
  · intro t ht htid
    simp only [List.mem_map] at ht
    obtain ⟨r, hr, hrt⟩ := ht
    by_cases hid : r.id = s.id
    · rw [if_pos hid] at hrt
      have hrs : r = s := huniq r hr hid
      subst hrs
      subst hrt
      simp
    · rw [if_neg hid] at hrt
      subst hrt
      exact absurd htid hid

/-! ## Claims -/

/-- C1 counterexample: the claim "`end_time >= now` at the moment of resume,
for all pause/resume histories (including multiple pause cycles)" is false.
Start a 100s session at t=0, pause at 50, resume at 200 (end becomes 250),
pause again at 240, resume at 300: the resume writes `end_time = 160 < 300`,
i.e. the session resumes into the past. -/
theorem c1_counterexample :
    (resumeCmd 300 (pauseCmd 240 (resumeCmd 200 (pauseCmd 50 [sessWork]).1).1).1).2
        = CmdResult.resumed 1 160 (-140) ∧
    ((resumeCmd 300 (pauseCmd 240 (resumeCmd 200 (pauseCmd 50 [sessWork]).1).1).1).1.find?
        (fun t => t.id == 1)).map Session.endTime = some 160 ∧
    (160 : Int) < 300 := by decide

/-- C1 (amended): a resumed session has `end_time >= now` at the moment of
resume provided the recorded pause timestamp lies within the planned duration
of the session start (`pausedAt - startTime <= durationSec`) — which holds on
the first pause cycle but can fail on later ones. -/
theorem c1_resume_never_past (now : Int) (store : Store) (s : Session) (p : Int)
    (hps : GetPausedSession store = some s) (hp : s.pausedAt = some p)
    (huniq : ∀ t ∈ store, t.id = s.id → t = s)
    (hfirst : p - s.startTime ≤ s.durationSec) :
    ∃ st, resumeCmd now store =
        (st, .resumed s.id (now + (s.durationSec - (p - s.startTime)))
          (s.durationSec - (p - s.startTime))) ∧
      ∀ t ∈ st, t.id = s.id → now ≤ t.endTime := by
  obtain ⟨st, h1, h2⟩ := resumeCmd_spec hps hp huniq
  refine ⟨st, h1, fun t ht htid => ?_⟩
  have := (h2 t ht htid).1
  omega

/-- C1 witness: resuming the first-cycle paused session at t = 200 commits
`end_time = 250 ≥ 200`. -/
theorem c1_resume_never_past_witness :
    ∃ st, resumeCmd 200 [sessPausedOnce] =
        (st, .resumed sessPausedOnce.id
          (200 + (sessPausedOnce.durationSec - (50 - sessPausedOnce.startTime)))
          (sessPausedOnce.durationSec - (50 - sessPausedOnce.startTime))) ∧
      ∀ t ∈ st, t.id = sessPausedOnce.id → (200 : Int) ≤ t.endTime :=
  c1_resume_never_past 200 [sessPausedOnce] sessPausedOnce 50
    (by decide) (by decide) (by decide) (by decide)

/-- C2: resume writes `end_time = now + (durationSec - (pausedAt - startTime))`,
computed only from the original planned duration and this pause's timestamp;
the accumulated `total_paused_duration` does not enter the computation. -/
theorem c2_resume_end_time (now : Int) (store : Store) (s : Session) (p : Int)
    (hps : GetPausedSession store = some s) (hp : s.pausedAt = some p)
    (huniq : ∀ t ∈ store, t.id = s.id → t = s) :
    (∃ st, resumeCmd now store =
        (st, .resumed s.id (now + (s.durationSec - (p - s.startTime)))
          (s.durationSec - (p - s.startTime))) ∧
      ∀ t ∈ st, t.id = s.id →
        t.endTime = now + (s.durationSec - (p - s.startTime))) ∧
    (∀ total, resumeNewEndTime now { s with totalPausedDuration := total } =
      resumeNewEndTime now s) := by
  obtain ⟨st, h1, h2⟩ := resumeCmd_spec hps hp huniq
  exact ⟨⟨st, h1, fun t ht htid => (h2 t ht htid).1⟩, fun _ => rfl⟩

/-- C2 witness: a session with accumulated paused duration 999 still resumes
to `end_time = 200 + (100 - (50 - 0)) = 250`. -/
theorem c2_resume_end_time_witness :
    (∃ st, resumeCmd 200 [sessPausedTot] =
        (st, .resumed sessPausedTot.id
          (200 + (sessPausedTot.durationSec - (50 - sessPausedTot.startTime)))
          (sessPausedTot.durationSec - (50 - sessPausedTot.startTime))) ∧
      ∀ t ∈ st, t.id = sessPausedTot.id →
        t.endTime = 200 + (sessPausedTot.durationSec - (50 - sessPausedTot.startTime))) ∧
    (∀ total, resumeNewEndTime 200 { sessPausedTot with totalPausedDuration := total } =
      resumeNewEndTime 200 sessPausedTot) :=
  c2_resume_end_time 200 [sessPausedTot] sessPausedTot 50
    (by decide) (by decide) (by decide)

/-- C3: `GetActiveSession` returns a session of greatest `start_time` among
those with `is_paused` set or `end_time > now` and not paused, and `none`
exactly when no such session exists. -/
theorem c3_get_active_session (now : Int) (store : Store) :
    (GetActiveSession now store = none ↔
      ∀ s ∈ store, ¬(s.isPaused = true ∨ (s.endTime > now ∧ s.isPaused = false))) ∧
    (∀ s, GetActiveSession now store = some s →
      s ∈ store ∧ (s.isPaused = true ∨ (s.endTime > now ∧ s.isPaused = false)) ∧
      ∀ t ∈ store, (t.isPaused = true ∨ (t.endTime > now ∧ t.isPaused = false)) →
        t.startTime ≤ s.startTime) := by
  have hiff : ∀ u : Session, isActiveAt now u = true ↔
      (u.isPaused = true ∨ (u.endTime > now ∧ u.isPaused = false)) := by
    intro u
    simp only [isActiveAt, Bool.or_eq_true, Bool.and_eq_true, decide_eq_true_eq,
      Bool.not_eq_true']
    tauto
  constructor
  · rw [GetActiveSession, latestBy_eq_none, List.filter_eq_nil_iff]
    constructor
    · intro h s hs hact
      exact h s hs ((hiff s).mpr hact)
    · intro h s hs hact
      exact h s hs ((hiff s).mp hact)
  · intro s hsome
    obtain ⟨hmem, hle⟩ := latestBy_mem_le hsome
    obtain ⟨hin, hact⟩ := List.mem_filter.mp hmem
    refine ⟨hin, (hiff s).mp hact, ?_⟩
    intro t htin htact
    exact hle t (List.mem_filter.mpr ⟨htin, (hiff t).mpr htact⟩)

/-- C3 witness: on a store holding one running session at `now = 50`, the
query returns it and it dominates every active row. -/
theorem c3_get_active_session_witness :
    sessWork ∈ [sessWork] ∧
    (sessWork.isPaused = true ∨ (sessWork.endTime > 50 ∧ sessWork.isPaused = false)) ∧
    ∀ t ∈ [sessWork], (t.isPaused = true ∨ (t.endTime > 50 ∧ t.isPaused = false)) →
      t.startTime ≤ sessWork.startTime :=
  (c3_get_active_session 50 [sessWork]).2 sessWork (by decide)

/-- C7 counterexample: the claim "the reported duration is non-negative for
every active session" is false.  A session whose recorded `start_time` lies
in the future (reachable with `start --ago` given a negative offset) is
active (`end_time > now`, not paused); cancelling it at `now = 50` reports
`actual_duration = 50 - 100 = -50 < 0`. -/
theorem c7_counterexample :
    (cancelCmd 50 [{ sessWork with startTime := 100, endTime := 200 }]).2
        = CmdResult.cancelled 1 (-50) ∧
    (-50 : Int) < 0 := by decide

/-- C7 (amended): cancelling an active session sets its `end_time` to `now`
and reports `actual_duration = now - start_time`; the reported duration is
non-negative provided the session was started at or before the cancel time
(`start_time ≤ now`, as holds for sessions started with a non-negative
`--ago` offset). -/
theorem c7_cancel (now : Int) (store : Store) (s : Session)
    (hact : GetActiveSession now store = some s) (hstart : s.startTime ≤ now) :
    cancelCmd now store =
      (UpdateSessionEndTime store s.id now, .cancelled s.id (now - s.startTime)) ∧
    (∀ t ∈ (cancelCmd now store).1, t.id = s.id → t.endTime = now) ∧
    0 ≤ now - s.startTime := by
  have h1 : cancelCmd now store =
      (UpdateSessionEndTime store s.id now, .cancelled s.id (now - s.startTime)) := by
    simp only [cancelCmd, hact]
  refine ⟨h1, ?_, by omega⟩
  intro t ht htid
  rw [h1] at ht
  simp only [UpdateSessionEndTime, List.mem_map] at ht
  obtain ⟨r, _, hrt⟩ := ht
  by_cases hid : r.id = s.id
  · rw [if_pos hid] at hrt
    subst hrt
    rfl
  · rw [if_neg hid] at hrt
    subst hrt
    exact absurd htid hid

/-- C7 witness: cancelling the running 100s session at `now = 60` sets
`end_time = 60` and reports the non-negative duration `60`. -/
theorem c7_cancel_witness :
    cancelCmd 60 [sessWork] =
      (UpdateSessionEndTime [sessWork] sessWork.id 60,
        .cancelled sessWork.id (60 - sessWork.startTime)) ∧
    (∀ t ∈ (cancelCmd 60 [sessWork]).1, t.id = sessWork.id → t.endTime = 60) ∧
    0 ≤ 60 - sessWork.startTime :=
  c7_cancel 60 [sessWork] sessWork (by decide) (by decide)

/-- C8 counterexample: the round-trip claim is false when the store already
holds a session with a later `start_time` than the one being created:
`GetLastSession` orders by `start_time`, not by insertion, so it returns the
pre-existing record instead of the newly created one. -/
theorem c8_counterexample :
    (GetLastSession
        (CreateSession [sessOld] 50 110 "new" 60 "t" false).1).map
      Session.description = some "old" ∧
    "old" ≠ "new" := by decide

/-- C8 (amended): `CreateSession` immediately followed by `GetLastSession`
returns a record whose every field matches the input, provided the new
session's `start_time` is strictly later than that of every session already
in the store. -/
theorem c8_create_get_last (store : Store) (startTime endTime : Int)
    (description : String) (durationSec : Int) (tagsCSV : String) (wasBreak : Bool)
    (h : ∀ t ∈ store, t.startTime < startTime) :
    GetLastSession (CreateSession store startTime endTime description
        durationSec tagsCSV wasBreak).1 =
      some { id := nextId store, startTime := startTime, endTime := endTime,
             description := description, durationSec := durationSec,
             tagsCSV := tagsCSV, wasBreak := wasBreak,
             pausedAt := none, totalPausedDuration := 0, isPaused := false } := by
  apply latestBy_of_strict_max
  · simp [CreateSession]
  · intro t ht hne
    simp only [CreateSession, List.mem_append, List.mem_singleton] at ht
    rcases ht with ht | ht
    · exact h t ht
    · exact absurd ht hne

/-- C8 witness: on an empty store the round trip returns exactly the created
record. -/
theorem c8_create_get_last_witness :
    GetLastSession (CreateSession [] 10 20 "d" 10 "a,b" false).1 =
      some { id := nextId [], startTime := 10, endTime := 20,
             description := "d", durationSec := 10,
             tagsCSV := "a,b", wasBreak := false,
             pausedAt := none, totalPausedDuration := 0, isPaused := false } :=
  c8_create_get_last [] 10 20 "d" 10 "a,b" false (by simp)

/-- C9: the pause command treats a missing active session, and an active
session that is already paused, as non-fatal no-ops (a user-visible notice,
no store mutation); a failing store read or a failing store write instead
aborts the command as fatal. -/
theorem c9_pause_error_handling (now : Int) (store : Store) :
    (GetActiveSession now store = none → pauseCmd now store = (store, .noSession)) ∧
    (∀ s, GetActiveSession now store = some s → s.isPaused = true →
      pauseCmd now store = (store, .alreadyPaused)) ∧
    (∀ s, GetActiveSession now store = some s → s.isPaused = false →
      pauseCmd now store = (PauseSession store s.id now, .paused s.id)) ∧
    (∀ e pauseRes, pauseCmdFallible store (.error e) pauseRes = (store, .fatal)) ∧
    (∀ s e, s.isPaused = false →
      pauseCmdFallible store (.ok (some s)) (.error e) = (store, .fatal)) := by
  refine ⟨?_, ?_, ?_, ?_, ?_⟩
  · intro h; simp [pauseCmd, h]
  · intro s h hp; simp [pauseCmd, h, hp]
  · intro s h hp; simp [pauseCmd, h, hp]
  · intro e pauseRes; rfl
  · intro s e hp; simp [pauseCmdFallible, hp]

/-- C9 witness: on an empty store the pause command is a no-op notice, and
injected store failures make it fatal. -/
theorem c9_pause_error_handling_witness :
    pauseCmd 0 ([] : Store) = ([], .noSession) ∧
    pauseCmd 0 [sessPausedOnce] = ([sessPausedOnce], .alreadyPaused) ∧
    pauseCmdFallible [sessWork] (.error "disk error") (.ok [sessWork])
      = ([sessWork], .fatal) ∧
    pauseCmdFallible [sessWork] (.ok (some sessWork)) (.error "disk error")
      = ([sessWork], .fatal) := by
  have h0 := c9_pause_error_handling 0 ([] : Store)
  have h1 := c9_pause_error_handling 0 [sessPausedOnce]
  have h2 := c9_pause_error_handling 0 [sessWork]
  refine ⟨h0.1 (by decide), h1.2.1 sessPausedOnce (by decide) (by decide),
    h2.2.2.2.1 "disk error" (.ok [sessWork]),
    h2.2.2.2.2 sessWork "disk error" (by decide)⟩

/-- C4: for a positive daily target `T` and a day's session list with `C`
non-break sessions, the daily goal progress has `current = C`,
`percentage = min 100 (C/T*100)`, `remaining = max 0 (T - C)`,
`isComplete = (C ≥ T)` and `isOverAchieved = (C > T)`. -/
theorem c4_daily_goal_progress (target : Int) (sessions : List Session)
    (_hpos : 0 < target) :
    (GetDailyGoalProgress target sessions).current = (countCompleted sessions : Int) ∧
    (GetDailyGoalProgress target sessions).percentage =
      min 100 ((countCompleted sessions : ℚ) / (target : ℚ) * 100) ∧
    (GetDailyGoalProgress target sessions).remaining =
      max 0 (target - (countCompleted sessions : Int)) ∧
    ((GetDailyGoalProgress target sessions).isComplete = true ↔
      (countCompleted sessions : Int) ≥ target) ∧
    ((GetDailyGoalProgress target sessions).isOverAchieved = true ↔
      (countCompleted sessions : Int) > target) := by
  refine ⟨rfl, ?_, rfl, ?_, ?_⟩
  · show (if ((countCompleted sessions : Int) : ℚ) / (target : ℚ) * 100 > 100
        then (100 : ℚ)
        else ((countCompleted sessions : Int) : ℚ) / (target : ℚ) * 100) = _
    rcases le_or_lt (((countCompleted sessions : Int) : ℚ) / (target : ℚ) * 100) 100
      with hle | hgt
    · rw [if_neg (not_lt.mpr hle), min_eq_right]
      · push_cast
        rfl
      · push_cast at hle ⊢
        exact hle
    · rw [if_pos hgt, min_eq_left]
      push_cast at hgt ⊢
      exact le_of_lt hgt
  · simp [GetDailyGoalProgress]
  · simp [GetDailyGoalProgress]

/-- C4 witness: target 8 with 5 qualifying sessions gives
`percentage = 62.5`, `remaining = 3`, `isComplete = false`. -/
theorem c4_daily_goal_progress_witness :
    (GetDailyGoalProgress 8 (List.replicate 5 sessWork)).current = 5 ∧
    (GetDailyGoalProgress 8 (List.replicate 5 sessWork)).percentage = 125 / 2 ∧
    (GetDailyGoalProgress 8 (List.replicate 5 sessWork)).remaining = 3 ∧
    (GetDailyGoalProgress 8 (List.replicate 5 sessWork)).isComplete = false := by
  obtain ⟨h1, h2, h3, h4, h5⟩ :=
    c4_daily_goal_progress 8 (List.replicate 5 sessWork) (by norm_num)
  have hc : countCompleted (List.replicate 5 sessWork) = 5 := by decide
  refine ⟨?_, ?_, ?_, ?_⟩
  · rw [h1, hc]; rfl
  · rw [h2, hc]; norm_num
  · rw [h3, hc]; rfl
  · rw [Bool.eq_false_iff]
    intro hc'
    have := h4.mp hc'
    rw [hc] at this
    omega

/-- C6: the weekly goal period starts at the most recent Monday at 00:00:00:
the computed `weekStart` has zero seconds-of-day, falls on a Monday, is at
most 6 days before `now` (exactly 6 when `now` is a Sunday, treating Sunday
as day 7 of the prior week), and for a Wednesday `now` it is the Monday two
days earlier. -/
theorem c6_week_start (now : LocalTime) :
    (weekStart now).secOfDay = 0 ∧
    weekday (weekStart now).day = 1 ∧
    (weekStart now).day ≤ now.day ∧
    now.day - (weekStart now).day < 7 ∧
    (weekday now.day = 0 → now.day - (weekStart now).day = 6) ∧
    (weekday now.day = 3 → (weekStart now).day = now.day - 2) := by
  simp only [weekStart, weekday, daysToMonday]
  by_cases h : now.day % 7 = 0
  · rw [if_pos h]
    refine ⟨trivial, ?_, ?_, ?_, ?_, ?_⟩ <;> omega
  · rw [if_neg h]
    refine ⟨trivial, ?_, ?_, ?_, ?_, ?_⟩ <;> omega

/-- C6 witness: for a Wednesday (`day ≡ 3 [mod 7]`) the week starts on the
Monday of the same week at 00:00:00. -/
theorem c6_week_start_witness :
    weekStart { day := 3, secOfDay := 500 } = { day := 1, secOfDay := 0 } := by
  obtain ⟨h1, _, _, _, _, h6⟩ := c6_week_start { day := 3, secOfDay := 500 }
  have hd : weekday (3 : Int) = 3 := by decide
  have := h6 hd
  cases hws : weekStart { day := 3, secOfDay := 500 }
  rw [hws] at h1 this
  simp_all

/-! ## Streak lemmas -/

theorem bestStreakLoop_eq_runCarry (L : List Nat) :
    ∀ temp best, bestStreakLoop L temp best = max best (runCarry temp L) := by
  induction L with
  | nil => intro temp best; simp [bestStreakLoop, runCarry]
  | cons c rest ih =>
    intro temp best
    by_cases hc : 0 < c
    · simp only [bestStreakLoop, runCarry, if_pos hc, ih]
      omega
    · simp only [bestStreakLoop, runCarry, if_neg hc, ih]

theorem runCarry_front {mid : List Nat} (post : List Nat) :
    ∀ temp, (∀ c ∈ mid, 0 < c) → mid ≠ [] →
      temp + mid.length ≤ runCarry temp (mid ++ post) := by
  induction mid with
  | nil => intro temp _ hne; exact absurd rfl hne
  | cons c mid ih =>
    intro temp hpos _
    have hc : 0 < c := hpos c (List.mem_cons_self _ _)
    simp only [List.cons_append, runCarry, if_pos hc, List.append_eq]
    by_cases hmid : mid = []
    · subst hmid
      simp
    · have := ih (temp + 1) (fun d hd => hpos d (List.mem_cons_of_mem _ hd)) hmid
      simp only [List.length_cons]
      omega

theorem runCarry_run_le {mid : List Nat} (hpos : ∀ c ∈ mid, 0 < c) :
    ∀ (pre post : List Nat) (temp : Nat),
      mid.length ≤ runCarry temp (pre ++ mid ++ post) := by
  intro pre
  induction pre with
  | nil =>
    intro post temp
    by_cases hmid : mid = []
    · subst hmid; simp
    · have := runCarry_front post temp hpos hmid
      simpa using le_trans (Nat.le_add_left _ _) this
  | cons x pre ih =>
    intro post temp
    simp only [List.cons_append, runCarry]
    by_cases hx : 0 < x
    · rw [if_pos hx]
      exact le_trans (ih post (temp + 1)) (le_max_right _ _)
    · rw [if_neg hx]
      exact ih post 0

theorem runCarry_achieved (L : List Nat) :
    ∀ temp,
      (∃ mid post, L = mid ++ post ∧ (∀ c ∈ mid, 0 < c) ∧
        temp + mid.length = runCarry temp L) ∨
      (∃ pre mid post, L = pre ++ mid ++ post ∧ (∀ c ∈ mid, 0 < c) ∧
        mid.length = runCarry temp L) := by
  induction L with
  | nil =>
    intro temp
    exact Or.inr ⟨[], [], [], rfl, by simp, rfl⟩
  | cons c rest ih =>
    intro temp
    by_cases hc : 0 < c
    · have hrc : runCarry temp (c :: rest) = max (temp + 1) (runCarry (temp + 1) rest) := by
        simp [runCarry, hc]
      rcases ih (temp + 1) with ⟨mid, post, hsplit, hpos, hlen⟩ |
        ⟨pre, mid, post, hsplit, hpos, hlen⟩
      · -- a run at the front of `rest` extends the carried run through `c`
        refine Or.inl ⟨c :: mid, post, by simp [hsplit], ?_, ?_⟩
        · intro d hd
          rcases List.mem_cons.mp hd with rfl | hd
          · exact hc
          · exact hpos d hd
        · simp only [List.length_cons, hrc]
          omega
      · by_cases hcmp : temp + 1 ≤ runCarry (temp + 1) rest
        · -- the best run lies inside `rest`
          refine Or.inr ⟨c :: pre, mid, post, by simp [hsplit], hpos, ?_⟩
          rw [hrc]
          omega
        · -- the carried run `[..., c]` itself is the best
          refine Or.inl ⟨[c], rest, rfl, ?_, ?_⟩
          · intro d hd
            rcases List.mem_singleton.mp hd with rfl
            exact hc
          · rw [hrc]
            simp only [List.length_singleton]
            omega
    · have hrc : runCarry temp (c :: rest) = runCarry 0 rest := by
        simp [runCarry, hc]
      rcases ih 0 with ⟨mid, post, hsplit, hpos, hlen⟩ |
        ⟨pre, mid, post, hsplit, hpos, hlen⟩
      · refine Or.inr ⟨[c], mid, post, by simp [hsplit], hpos, ?_⟩
        rw [hrc]
        omega
      · refine Or.inr ⟨c :: pre, mid, post, by simp [hsplit], hpos, ?_⟩
        rw [hrc]
        omega

theorem currentStreakLoop_le_runCarry (L : List Nat) :
    ∀ temp, temp + currentStreakLoop L ≤ max temp (runCarry temp L) := by
  induction L with
  | nil => intro temp; simp [currentStreakLoop]
  | cons c rest ih =>
    intro temp
    by_cases hc : 0 < c
    · simp only [currentStreakLoop, runCarry, if_pos hc]
      have := ih (temp + 1)
      omega
    · simp only [currentStreakLoop, runCarry, if_neg hc]
      omega

theorem currentStreakLoop_takeWhile (L : List Nat) :
    currentStreakLoop L = (L.takeWhile (fun c => decide (0 < c))).length := by
  induction L with
  | nil => rfl
  | cons c rest ih =>
    by_cases hc : 0 < c
    · simp [currentStreakLoop, List.takeWhile_cons, hc, ih]
    · simp [currentStreakLoop, List.takeWhile_cons, hc]

theorem getStreak_best_eq_runCarry (L : List Nat) :
    (GetStreak L).best = runCarry 0 L := by
  have h1 : (GetStreak L).best = max (currentStreakLoop L) (runCarry 0 L) :=
    bestStreakLoop_eq_runCarry L 0 (currentStreakLoop L)
  have h2 := currentStreakLoop_le_runCarry L 0
  simp only [Nat.zero_add, Nat.max_eq_right (Nat.zero_le _)] at h2
  omega

/-- C5: over a 30-day window of per-day non-break session counts (`L.head`
is today), `currentStreak` is the length of the prefix of consecutive
positive-count days (walking backward from today up to the first zero-count
day or the window boundary), and `bestStreak` is the length of the longest
run of consecutive positive-count days anywhere in the window: some run
attains it and no run exceeds it. -/
theorem c5_streak (L : List Nat) (_hwindow : L.length = 30) :
    (GetStreak L).current = (L.takeWhile (fun c => decide (0 < c))).length ∧
    (∃ pre mid post, L = pre ++ mid ++ post ∧ (∀ c ∈ mid, 0 < c) ∧
      mid.length = (GetStreak L).best) ∧
    (∀ pre mid post, L = pre ++ mid ++ post → (∀ c ∈ mid, 0 < c) →
      mid.length ≤ (GetStreak L).best) := by
  refine ⟨currentStreakLoop_takeWhile L, ?_, ?_⟩
  · rw [getStreak_best_eq_runCarry]
    rcases runCarry_achieved L 0 with ⟨mid, post, hsplit, hpos, hlen⟩ |
      ⟨pre, mid, post, hsplit, hpos, hlen⟩
    · exact ⟨[], mid, post, by simpa using hsplit, hpos, by simpa using hlen⟩
    · exact ⟨pre, mid, post, hsplit, hpos, hlen⟩
  · intro pre mid post hsplit hpos
    rw [getStreak_best_eq_runCarry, hsplit]
    exact runCarry_run_le hpos pre post 0

/-- C5 witness: sessions on days D, D−1, D−2 and none earlier in the window
give `currentStreak = 3` (and a best run of length 3). -/
theorem c5_streak_witness :
    ([1, 1, 1, 0] ++ List.replicate 26 0).length = 30 ∧
    (GetStreak ([1, 1, 1, 0] ++ List.replicate 26 0)).current = 3 ∧
    (GetStreak ([1, 1, 1, 0] ++ List.replicate 26 0)).current =
      (([1, 1, 1, 0] ++ List.replicate 26 0).takeWhile
        (fun c => decide (0 < c))).length ∧
    (∀ pre mid post, ([1, 1, 1, 0] ++ List.replicate 26 0) = pre ++ mid ++ post →
      (∀ c ∈ mid, 0 < c) →
      mid.length ≤ (GetStreak ([1, 1, 1, 0] ++ List.replicate 26 0)).best) := by
  obtain ⟨h1, _, h3⟩ := c5_streak ([1, 1, 1, 0] ++ List.replicate 26 0) (by decide)
  exact ⟨by decide, by decide, h1, h3⟩

/-! ## Tag sanitisation lemmas -/

theorem charOfNat_toNat {n : Nat} (h1 : 97 ≤ n) (h2 : n ≤ 122) :
    (Char.ofNat n).toNat = n := by
  have hv : n.isValidChar := Or.inl (by omega)
  simp only [Char.ofNat, hv, dif_pos, Char.ofNatAux, Char.toNat, UInt32.toNat]
  rfl

theorem char_toLower_idem (c : Char) : c.toLower.toLower = c.toLower := by
  unfold Char.toLower
  by_cases h : c.toNat ≥ 65 ∧ c.toNat ≤ 90
  · rw [if_pos h]
    have ht : (Char.ofNat (c.toNat + 32)).toNat = c.toNat + 32 :=
      charOfNat_toNat (by omega) (by omega)
    rw [if_neg (by rw [ht]; omega)]
  · rw [if_neg h, if_neg h]

theorem string_toLower_idem (s : String) : s.toLower.toLower = s.toLower := by
  simp only [String.toLower, String.map_eq, List.map_map]
  congr 1
  simp only [List.map_inj_left, Function.comp_apply]
  intro c _
  exact char_toLower_idem c

theorem mem_dedupFirst {a : String} : ∀ {l : List String}, a ∈ dedupFirst l → a ∈ l := by
  intro l
  induction l using dedupFirst.induct with
  | case1 => intro h; rw [dedupFirst] at h; exact absurd h (List.not_mem_nil a)
  | case2 x rest ih =>
    intro h
    rw [dedupFirst] at h
    rcases List.mem_cons.mp h with rfl | h
    · exact List.mem_cons_self _ _
    · exact List.mem_cons_of_mem _ (List.mem_of_mem_filter (ih h))

theorem nodup_dedupFirst : ∀ (l : List String), (dedupFirst l).Nodup := by
  intro l
  induction l using dedupFirst.induct with
  | case1 => simp [dedupFirst]
  | case2 x rest ih =>
    rw [dedupFirst]
    refine List.nodup_cons.mpr ⟨?_, ih⟩
    intro hx
    have := List.of_mem_filter (mem_dedupFirst hx)
    simp at this

/-- The sanitisation loop equals: clean every tag (trim, then lowercase),
drop empty results and results already in `acc`, and keep first occurrences. -/
theorem sanitizeTagsAux_eq (ts : List String) :
    ∀ acc : List String,
      SanitizeTagsAux ts acc = acc.reverse ++
        dedupFirst ((ts.map (fun t => t.trim.toLower)).filter
          (fun c => !(c == "") && !(acc.contains c))) := by
  induction ts with
  | nil => intro acc; simp [SanitizeTagsAux, dedupFirst]
  | cons t rest ih =>
    intro acc
    simp only [SanitizeTagsAux, List.map_cons, List.filter_cons]
    by_cases hkeep : t.trim.toLower ≠ "" ∧ ¬ acc.contains t.trim.toLower
    · rw [if_pos hkeep]
      obtain ⟨h1, h2⟩ := hkeep
      have hc1 : (t.trim.toLower == "") = false := beq_eq_false_iff_ne.mpr h1
      have hc2 : acc.contains t.trim.toLower = false := Bool.eq_false_iff.mpr h2
      rw [if_pos (by rw [hc1, hc2]; rfl), ih (t.trim.toLower :: acc)]
      rw [dedupFirst]
      have hfilter :
          (rest.map (fun u => u.trim.toLower)).filter
              (fun c => !(c == "") && !((t.trim.toLower :: acc).contains c)) =
            ((rest.map (fun u => u.trim.toLower)).filter
              (fun c => !(c == "") && !(acc.contains c))).filter
              (fun y => y ≠ t.trim.toLower) := by
        rw [List.filter_filter]
        apply List.filter_congr
        intro d _
        simp only [List.contains_cons, Bool.not_or, decide_not]
        cases hd1 : d == "" <;> cases hd2 : d == t.trim.toLower <;>
          cases hd3 : acc.contains d <;> simp_all
      rw [hfilter]
      simp
    · rw [if_neg hkeep]
      have hb : (!(t.trim.toLower == "") && !(acc.contains t.trim.toLower)) = false := by
        rcases not_and_or.mp hkeep with h1 | h2
        · rw [not_not] at h1
          rw [h1]
          rfl
        · rw [not_not] at h2
          rw [h2]
          simp
      rw [if_neg (by simp only [hb]; exact Bool.false_ne_true), ih acc]

/-- `SanitizeTags` in closed form: first occurrences of the non-empty
trimmed-and-lowercased tags, in input order. -/
theorem sanitizeTags_eq (ts : List String) :
    SanitizeTags ts =
      dedupFirst ((ts.map (fun t => t.trim.toLower)).filter (fun c => !(c == ""))) := by
  rw [SanitizeTags, sanitizeTagsAux_eq ts []]
  simp only [List.reverse_nil, List.nil_append]
  congr 1
  apply List.filter_congr
  intro d _
  simp

/-- C10: `SanitizeTags` trims and lowercases every tag, removes empty
results, and drops duplicates keeping the first occurrence; hence the tag
list of a session created by the start command (which passes the sanitized
list, CSV-joined, to `CreateSession`) is duplicate-free, with every tag
non-empty, lowercase (a `toLower` fixed point) and the cleaned form of an
input tag, in first-occurrence order. -/
theorem c10_sanitize_tags (rawTags : List String) :
    SanitizeTags rawTags =
      dedupFirst ((rawTags.map (fun t => t.trim.toLower)).filter
        (fun c => !(c == ""))) ∧
    (SanitizeTags rawTags).Nodup ∧
    (∀ t ∈ SanitizeTags rawTags,
      t ≠ "" ∧ t.toLower = t ∧ t ∈ rawTags.map (fun r => r.trim.toLower)) ∧
    (∀ (store : Store) (now ago durationSec : Int) (description : String),
      startCmd now store ago durationSec description rawTags =
        CreateSession store (now - ago) (now - ago + durationSec) description
          durationSec (String.intercalate "," (SanitizeTags rawTags)) false) := by
  refine ⟨sanitizeTags_eq rawTags, ?_, ?_, fun _ _ _ _ _ => rfl⟩
  · rw [sanitizeTags_eq]
    exact nodup_dedupFirst _
  · intro t ht
    rw [sanitizeTags_eq] at ht
    have hmemf := mem_dedupFirst ht
    have hmem := List.mem_of_mem_filter hmemf
    have hpred := List.of_mem_filter hmemf
    refine ⟨?_, ?_, hmem⟩
    · intro h
      rw [h] at hpred
      simp at hpred
    · obtain ⟨r, _, hr⟩ := List.mem_map.mp hmem
      rw [← hr]
      exact string_toLower_idem _

end Pomodoro
